import Mathlib

/-!
Verification development for the environment-file parser
(`ParsedEnvironmentFile.CreateFromContent`) and the self-update orchestrator
(`applyUpdate` / `checkAndApplyUpdate` / `installVsix` and the two timer
registration sites) of the vscode-cpptools extension sources.

Strings are modelled as `List Char` so that line splitting and character
class reasoning is structural.  JavaScript `Map` objects are modelled as
association lists in insertion order, which is exactly the iteration order
of a JS `Map`.
-/

set_option maxHeartbeats 1000000

abbrev Chars := List Char

/-- The JavaScript regex class `\s` (ECMAScript WhiteSpace ∪ LineTerminator):
tab, LF, VT, FF, CR, space, NBSP, U+1680, U+2000–U+200A, U+2028, U+2029,
U+202F, U+205F, U+3000 and the BOM U+FEFF. -/
def isWs (c : Char) : Bool :=
  (c.toNat == 9) || (c.toNat == 10) || (c.toNat == 11) || (c.toNat == 12) ||
  (c.toNat == 13) || (c.toNat == 32) || (c.toNat == 0xA0) || (c.toNat == 0x1680) ||
  (decide (0x2000 ≤ c.toNat) && decide (c.toNat ≤ 0x200A)) ||
  (c.toNat == 0x2028) || (c.toNat == 0x2029) || (c.toNat == 0x202F) ||
  (c.toNat == 0x205F) || (c.toNat == 0x3000) || (c.toNat == 0xFEFF)

/-- The JavaScript regex class `\w`: ASCII letters, digits and underscore. -/
def isWordChar (c : Char) : Bool :=
  (decide (97 ≤ c.toNat) && decide (c.toNat ≤ 122)) ||
  (decide (65 ≤ c.toNat) && decide (c.toNat ≤ 90)) ||
  (decide (48 ≤ c.toNat) && decide (c.toNat ≤ 57)) ||
  (c.toNat == 95)

/-- The key class `[\w\.\-]` of the line regex. -/
def isKeyChar (c : Char) : Bool :=
  isWordChar c || (c.toNat == 46) || (c.toNat == 45)

/-- ECMAScript LineTerminator characters, the characters NOT matched by `.`:
LF, CR, U+2028, U+2029. -/
def isLineTerm (c : Char) : Bool :=
  (c.toNat == 10) || (c.toNat == 13) || (c.toNat == 0x2028) || (c.toNat == 0x2029)

/-- The regex class `.` (no dotAll flag): any character except a line
terminator. -/
def isDotChar (c : Char) : Bool := !(isLineTerm c)

/-- Single or double quote, the class `['"]` of the quote-strip regex. -/
def isQuote (c : Char) : Bool := (c.toNat == 39) || (c.toNat == 34)

/-- Model of `content.split("\n")` of the source: split a character list at every LF.
An empty input yields one empty line, exactly as in JavaScript. -/
def splitOnNl : Chars → List Chars
  | [] => [[]]
  | c :: rest =>
    if c.toNat == 10 then [] :: splitOnNl rest
    else
      match splitOnNl rest with
      | [] => [[c]]
      | l :: ls => (c :: l) :: ls

/-- The line regex `^\s*([\w\.\-]+)\s*=\s*(.*)?\s*$` of
`CreateFromContent` (src/unnamed/part_000 line 50), as a deterministic
function.  The backtracking search of the JS engine collapses to maximal
munch at every star because the relevant character classes are disjoint:

* `^\s*` is forced maximal since no key character is whitespace;
* `([\w\.\-]+)` is forced maximal since no key character is `=` or
  whitespace, so a shorter key leaves a key character where `\s*=` must
  match;
* the `\s*` before `=` is forced maximal since `=` is not whitespace;
* in the tail `\s*(.*)?\s*$`, the first `\s*` is taken maximal, then `.*`
  consumes the maximal run of non-line-terminator characters; the match
  succeeds exactly when what remains is all whitespace (shrinking `.*`
  moves characters into the final `\s*`, which cannot absorb a
  non-whitespace character, and shrinking the leading `\s*` only prepends
  whitespace — which `.` also matches — to the candidate value, never
  turning a failing tail into a successful one, while success with a
  shorter leading `\s*` implies success with the maximal one).

Returns the pair (group 1, group 2); group 2 defaults to `[]`, matching
`r[2] || ""` in the source. -/
def matchLine (line : Chars) : Option (Chars × Chars) :=
  let l1 := line.dropWhile isWs
  let key := l1.takeWhile isKeyChar
  let l2 := l1.dropWhile isKeyChar
  if key = [] then none
  else
    match l2.dropWhile isWs with
    | c :: s =>
      if c.toNat == 61 then
        let s2 := s.dropWhile isWs
        let v := s2.takeWhile isDotChar
        let t := s2.dropWhile isDotChar
        if t.all isWs then some (key, v) else none
      else none
    | [] => none

/-- Model of `value.replace(/\\n/gm, "\n")`: replace every (left-to-right,
non-overlapping) occurrence of the two-character sequence backslash-`n`
by a real LF. -/
def unescapeNl : Chars → Chars
  | [] => []
  | [c] => [c]
  | c1 :: c2 :: rest =>
    if c1.toNat == 92 && c2.toNat == 110 then '\n' :: unescapeNl rest
    else c1 :: unescapeNl (c2 :: rest)

/-- Model of `value.replace(/(^['"]|['"]$)/g, "")`: the first alternative can only
match at position 0 and the second only at the last character, so the
global replace removes one leading quote if present and one trailing quote
if present; when the value is a single quote character the leading
alternative consumes it and the scan ends, which is exactly what stripping
the leading quote first and then testing the remainder's last character
computes. -/
def stripQuotes (v : Chars) : Chars :=
  let v1 := match v with
    | [] => []
    | c :: rest => if isQuote c then rest else v
  match v1.getLast? with
  | some c => if isQuote c then v1.dropLast else v1
  | none => v1

/-- The guard `(value.length > 0) && (value.charAt(0) === '"') &&
(value.charAt(value.length - 1) === '"')` (line 55 of the source). -/
def isDqWrapped (v : Chars) : Bool :=
  match v.head?, v.getLast? with
  | some a, some b => (a.toNat == 34) && (b.toNat == 34)
  | _, _ => false

/-- Value post-processing of a matched line, lines 54–59 of the source:
conditional newline un-escaping followed by unconditional quote
stripping. -/
def postprocessValue (v : Chars) : Chars :=
  stripQuotes (if isDqWrapped v then unescapeNl v else v)

structure Environment where
  name : Chars
  value : Chars
deriving DecidableEq

/-- Model of `env.set(key, value)` on a JS `Map` held as an insertion-ordered
association list: an existing key keeps its position and gets the new
value, a new key is appended. -/
def envSet : List Environment → Chars → Chars → List Environment
  | [], k, v => [⟨k, v⟩]
  | e :: rest, k, v =>
    if e.name = k then ⟨k, v⟩ :: rest else e :: envSet rest k v

/-- The comment test `/^\s*(#|$)/.test(line)` (line 64): optional leading
whitespace followed by `#` or the end of the line.  Maximal munch is again
forced because `#` is not whitespace. -/
def isCommentOrBlank (line : Chars) : Bool :=
  match line.dropWhile isWs with
  | [] => true
  | c :: _ => c.toNat == 35

/-- One iteration of the `forEach` over lines (lines 48–69): a matching
line updates the map with the post-processed value, a non-matching line
that is not blank or a comment is recorded as a parse error. -/
def processLine (acc : List Environment × List Chars) (line : Chars) :
    List Environment × List Chars :=
  match matchLine line with
  | some (k, v) => (envSet acc.1 k (postprocessValue v), acc.2)
  | none => if isCommentOrBlank line then acc else (acc.1, acc.2 ++ [line])

/-- Remove a UTF-8 BOM if present (lines 33–35). -/
def stripBom (content : Chars) : Chars :=
  match content with
  | [] => []
  | c :: rest => if c.toNat == 0xFEFF then rest else content

/-- The localized prefix of the warning (line 74): the message
`Ignoring non-parseable lines in {0} {1}: ` with the arguments `envFile`
and the file path substituted. -/
def warnHeader (envFile : Chars) : Chars :=
  ("Ignoring non-parseable lines in envFile ").data ++ envFile ++ (": ").data

/-- The `forEach` that appends each offending line in quotes, with `", "`
between items and a final period (lines 75–77). -/
def aggErrors : List Chars → Chars
  | [] => []
  | [e] => '"' :: (e ++ ['"', '.'])
  | e :: rest => '"' :: (e ++ ['"', ',', ' ']) ++ aggErrors rest

structure ParsedEnvironmentFile where
  Env : List Environment
  Warning : Option Chars
deriving DecidableEq

/-- Model of `ParsedEnvironmentFile.CreateFromContent` (lines 30–87): strip the BOM,
seed the map from the optional baseline, fold the line handler over the
LF-split content, aggregate parse errors into a single warning, and emit
the map in iteration (insertion) order. -/
def CreateFromContent (content : Chars) (envFile : Chars)
    (initialEnv : Option (List Environment)) : ParsedEnvironmentFile :=
  let content1 := stripBom content
  let initMap : List Environment :=
    match initialEnv with
    | some es => es.foldl (fun m e => envSet m e.name e.value) []
    | none => []
  let st := (splitOnNl content1).foldl processLine (initMap, [])
  { Env := st.1
    Warning := if st.2 = [] then none else some (warnHeader envFile ++ aggErrors st.2) }

example : matchLine (("K=v  ").data) = some (("K").data, ("v  ").data) := by decide

example : (CreateFromContent (("A=2\nB=3").data) ([]) (some [⟨("A").data, ("1").data⟩])).Env
    = [⟨("A").data, ("2").data⟩, ⟨("B").data, ("3").data⟩] := by decide

example : (CreateFromContent (("KEY=\"line1\\nline2\"").data) ([]) none).Env
    = [⟨("KEY").data, ("line1\nline2").data⟩] := by decide

example : (CreateFromContent (("K='v\"").data) ([]) none).Env
    = [⟨("K").data, ("v").data⟩] := by decide

example : (CreateFromContent (("K=\"").data) ([]) none).Env
    = [⟨("K").data, ([])⟩] := by decide

example : (CreateFromContent (("bad line\nok=1").data) ([]) none).Warning
    = some ((("Ignoring non-parseable lines in envFile ").data) ++ (": ").data
        ++ ('"' :: (("bad line").data ++ ['"', '.']))) := by decide

/-!
Model of the self-update orchestrator in
src/Extension/src/LanguageServer/extension.ts.

The asynchronous code is single-threaded glue around four external
effects: the download (`util.downloadFileToDestination`), the
configuration store (`http.proxySupport`), the installer, and the
temporary-file creation.  Each is modelled by an oracle parameter, and an
execution of `applyUpdate`'s promise body is modelled as the list of
actions it performs, in order, ending with its settlement (`resolve` or
`reject`).  External logging/telemetry/prompt calls never affect control
flow and are modelled as inert actions (or omitted).
-/

/-- A build descriptor from the remote feed. -/
structure BuildInfo where
  name : String
  downloadUrl : String
deriving DecidableEq

/-- The `http.proxySupport` configuration slot.  `globalVal` is
`inspect('http.proxySupport').globalValue` (absent = `undefined`). -/
structure Cfg where
  globalVal : Option String
deriving DecidableEq

/-- Model of `config.get('http.proxySupport')`: the effective value, falling back
to the package default when no global value is set. -/
def Cfg.get (c : Cfg) (defVal : String) : String := c.globalVal.getD defVal

/-- Observable actions of one `applyUpdate` cycle, in program order. -/
inductive Act where
  | download (attempt : Nat) (ok : Bool)
  | updateCfg (v : Option String)
  | telemetryA
  | installA (ok : Bool)
  | clearTimerA
  | rejectA (msg : String)
  | resolveA
deriving DecidableEq

def tmpFailMsg : String := "Failed to create vsix file"
def dlOffFailMsg : String := "Failed to download VSIX package with proxySupport off"
def dlFailMsg : String := "Failed to download VSIX package"
def installFailMsg : String := "VS Code script exited with error code"

/-- Result of the `while (true)` download loop (lines 745–767). -/
structure LoopOut where
  acts : List Act
  res : Option Bool
  cfg : Cfg
deriving DecidableEq

/-- The `while (true)` download loop of `applyUpdate`, lines 745–767.
`original` is `originalProxySupport`, read once before the loop; `dl n`
is the outcome of the `n`-th call to `downloadFileToDestination`.  The
loop is given as fuel-indexed recursion; `applyUpdateLoop_settles` below
shows fuel 2 is never exhausted from the real entry state (the `continue`
branch both requires `original = cfg.globalVal` and makes them differ for
every later iteration), so this function computes the behaviour of the
unbounded source loop. -/
def applyUpdateLoop (defVal : String) (original : Option String)
    (dl : Nat → Bool) : Nat → Nat → Cfg → LoopOut
  | 0, _, cfg => ⟨[], none, cfg⟩
  | fuel + 1, n, cfg =>
    if dl n then
      if original ≠ cfg.globalVal then
        ⟨[.download n true, .updateCfg original, .telemetryA], some true, ⟨original⟩⟩
      else
        ⟨[.download n true], some true, cfg⟩
    else
      if original ≠ cfg.globalVal then
        ⟨[.download n false, .updateCfg original, .rejectA dlOffFailMsg], some false, ⟨original⟩⟩
      else if cfg.get defVal ≠ ("off") ∧ original ≠ some ("off") then
        let rest := applyUpdateLoop defVal original dl fuel (n + 1) ⟨some ("off")⟩
        ⟨[.download n false, .updateCfg (some ("off"))] ++ rest.acts, rest.res, rest.cfg⟩
      else
        ⟨[.download n false, .rejectA dlFailMsg], some false, cfg⟩

/-- The action trace of one execution of `applyUpdate`'s promise body
(lines 731–780).  `tmpOk` is the outcome of `tmp.file`, `installOk` the
outcome of `installVsix`, `cfg0` the configuration at entry. -/
def applyUpdateActs (defVal : String) (dl : Nat → Bool) (tmpOk : Bool)
    (installOk : Bool) (cfg0 : Cfg) : List Act :=
  if tmpOk then
    let out := applyUpdateLoop defVal cfg0.globalVal dl 2 0 cfg0
    match out.res with
    | some true =>
      if installOk then out.acts ++ [.installA true, .clearTimerA, .resolveA]
      else out.acts ++ [.installA false, .rejectA installFailMsg]
    | _ => out.acts
  else [.rejectA tmpFailMsg]

/-- Replay the configuration updates of a trace over a starting
configuration. -/
def replayCfg (c : Cfg) (acts : List Act) : Cfg :=
  acts.foldl (fun c a => match a with | .updateCfg v => ⟨v⟩ | _ => c) c

/-- Number of download attempts in a trace. -/
def dlCount (acts : List Act) : Nat :=
  (acts.filter fun a => match a with | .download _ _ => true | _ => false).length

/-- The settlement reported by a trace: `some true` when it ends in
`resolve`, `some false` when it ends in `reject`. -/
def settledOf (acts : List Act) : Option Bool :=
  match acts.getLast? with
  | some (.rejectA _) => some false
  | some .resolveA => some true
  | _ => none

/-- The `Promise.catch` combinator: the handler of `applyUpdate`
(lines 781–787) logs and returns `undefined`, turning any rejection into
a resolution. -/
def promiseCatch (r : Except String Unit) : Except String Unit :=
  match r with
  | .ok a => .ok a
  | .error _ => .ok ()

/-- The settlement of the inner promise of `applyUpdate` as an
`Except`. -/
def applyUpdateInner (defVal : String) (dl : Nat → Bool) (tmpOk : Bool)
    (installOk : Bool) (cfg0 : Cfg) : Except String Unit :=
  match (applyUpdateActs defVal dl tmpOk installOk cfg0).getLast? with
  | some (.rejectA m) => .error m
  | _ => .ok ()

/-- Model of `applyUpdate` as seen by its caller: the inner promise with the
trailing `.catch` handler attached. -/
def applyUpdateExc (defVal : String) (dl : Nat → Bool) (tmpOk : Bool)
    (installOk : Bool) (cfg0 : Cfg) : Except String Unit :=
  promiseCatch (applyUpdateInner defVal dl tmpOk installOk cfg0)

/-- Model of `checkAndApplyUpdate` (lines 795–812): use and clear the build-info
cache, otherwise query the feed inside `try/catch`; return when no build
is available, else await `applyUpdate`. -/
def checkAndApplyUpdateExc (cache : Option BuildInfo)
    (fetch : Except String (Option BuildInfo)) (defVal : String)
    (dl : Nat → Bool) (tmpOk : Bool) (installOk : Bool) (cfg0 : Cfg) :
    Except String Unit :=
  let b : Option BuildInfo :=
    match cache with
    | some x => some x
    | none => match fetch with
      | .ok r => r
      | .error _ => none
  match b with
  | none => .ok ()
  | some _ => applyUpdateExc defVal dl tmpOk installOk cfg0

/-!
Model of the two spawn-based variants of `installVsix`
(lines 627–653 and 656–686).  The spawned process and the 30-second
timer are the environment; an execution is a list of events delivered to
the registered handlers in order.  The 30-second timer guarantees that a
real event list contains a `timeoutE` unless the timer was cleared by an
earlier event, so an event list containing a timeout or a decision event
covers every real execution.  A promise keeps its first settlement.
-/

/-- Milliseconds of the install timeout (both variants). -/
def installTimeoutMs : Nat := 30000

/-- Events delivered to the handlers of a spawned install process. -/
inductive PEvent where
  | timeoutE
  | exitE (code : Int)
  | dataE
deriving DecidableEq

def timeoutRejMsg : String :=
  "Failed to receive response from VS Code script process for installation within 30s."

/-- The automated confirmation token `0\n` written to stdin. -/
def overrideToken : String := "0\n"

/-- State of one `installVsix` promise execution. -/
structure PState where
  settled : Option (Except String Unit)
  killed : Bool
  timerCleared : Bool
  sentOverride : Bool
  stdinWrites : List String

def initPState : PState := ⟨none, false, false, false, []⟩

/-- A promise keeps its first settlement; later calls are no-ops. -/
def settleWith (s : PState) (r : Except String Unit) : PState :=
  if s.settled.isSome then s else { s with settled := some r }

/-- Handlers of the exit-code variant (VS Code > 1.27.2, lines 627–653):
the timeout kills the process and rejects; the exit handler clears the
timer and resolves exactly on exit status zero. -/
def stepNewCli (s : PState) (e : PEvent) : PState :=
  match e with
  | .timeoutE =>
    if s.timerCleared then s
    else settleWith { s with killed := true } (.error timeoutRejMsg)
  | .exitE c =>
    let s1 := { s with timerCleared := true }
    if c ≠ 0 then settleWith s1 (.error installFailMsg) else settleWith s1 (.ok ())
  | .dataE => s

/-- Handlers of the stdin/stdout variant (VS Code ≤ 1.27.2, lines
656–686): the timeout kills and rejects; the first stdout byte makes the
code write the confirmation token, clear the timer and resolve; no exit
handler is registered at all. -/
def stepOldCli (s : PState) (e : PEvent) : PState :=
  match e with
  | .timeoutE =>
    if s.timerCleared then s
    else settleWith { s with killed := true } (.error timeoutRejMsg)
  | .dataE =>
    if s.sentOverride then s
    else settleWith
      { s with stdinWrites := s.stdinWrites ++ [overrideToken],
               sentOverride := true, timerCleared := true } (.ok ())
  | .exitE _ => s

def runNewCli (tr : List PEvent) : PState := tr.foldl stepNewCli initPState

def runOldCli (tr : List PEvent) : PState := tr.foldl stepOldCli initPState

/-!
Model of the two registration sites of the recurring Insiders update
timer.  A registration records the tick interval and the argument list
the timer passes to `checkAndApplyUpdate` on every tick (`none` models a
call with no argument at all, i.e. `updateChannel === undefined` inside
the callee).
-/

/-- Constant `insiderUpdateTimerInterval` (extension.ts line 43). -/
def insiderUpdateTimerInterval : Nat := 1000 * 60 * 60

structure TimerRegistration where
  intervalMs : Nat
  tickArg : Option String
deriving DecidableEq

/-- The startup site (lines 457–462): with the Insiders channel
configured, `setInterval(checkAndApplyUpdate, insiderUpdateTimerInterval,
settings.updateChannel)` passes the channel to every tick. -/
def realActivationUpdateTimer (updateChannel : String) : Option TimerRegistration :=
  if updateChannel = ("Default") then none
  else if updateChannel = ("Insiders") then
    some ⟨insiderUpdateTimerInterval, some updateChannel⟩
  else none

/-- The settings-change site (lines 488–497): switching to Insiders runs
`setInterval(checkAndApplyUpdate, insiderUpdateTimerInterval)` — with no
third argument, so every tick calls `checkAndApplyUpdate` with no
channel argument. -/
def settingsChangeUpdateTimer (newUpdateChannel : String) : Option TimerRegistration :=
  if newUpdateChannel = ("Default") then none
  else if newUpdateChannel = ("Insiders") then
    some ⟨insiderUpdateTimerInterval, none⟩
  else none

/-! ### Character class facts -/

theorem keyChar_not_ws {c : Char} (h : isKeyChar c = true) : isWs c = false := by
  simp only [isKeyChar, isWordChar, Bool.or_eq_true, Bool.and_eq_true, beq_iff_eq,
    decide_eq_true_eq] at h
  simp only [isWs, Bool.or_eq_false_iff, Bool.and_eq_false_iff, beq_eq_false_iff_ne, ne_eq,
    decide_eq_false_iff_not]
  omega

theorem keyChar_not_eqsign {c : Char} (h : isKeyChar c = true) : ¬(c.toNat = 61) := by
  simp only [isKeyChar, isWordChar, Bool.or_eq_true, Bool.and_eq_true, beq_iff_eq,
    decide_eq_true_eq] at h
  omega

theorem keyChar_not_nl {c : Char} (h : isKeyChar c = true) : ¬(c.toNat = 10) := by
  simp only [isKeyChar, isWordChar, Bool.or_eq_true, Bool.and_eq_true, beq_iff_eq,
    decide_eq_true_eq] at h
  omega

theorem dotChar_not_nl {c : Char} (h : isDotChar c = true) : ¬(c.toNat = 10) := by
  simp only [isDotChar, isLineTerm, Bool.not_eq_true', Bool.or_eq_false_iff,
    beq_eq_false_iff_ne, ne_eq] at h
  omega

/-! ### Generic list facts -/

theorem mem_takeWhile_pred {p : α → Bool} {l : List α} {a : α}
    (h : a ∈ l.takeWhile p) : p a = true := by
  induction l with
  | nil => simp [List.takeWhile] at h
  | cons x xs ih =>
    rw [List.takeWhile_cons] at h
    by_cases hx : p x = true
    · simp only [if_pos hx, List.mem_cons] at h
      rcases h with h | h
      · exact h ▸ hx
      · exact ih h
    · simp [if_neg hx] at h

theorem takeWhile_all_of_pred {p : α → Bool} {l : List α}
    (h : ∀ a ∈ l, p a = true) : l.takeWhile p = l := by
  induction l with
  | nil => rfl
  | cons x xs ih =>
    rw [List.takeWhile_cons, if_pos (h x (List.mem_cons_self x xs))]
    exact congrArg _ (ih fun a ha => h a (List.mem_cons_of_mem x ha))

theorem dropWhile_nil_of_pred {p : α → Bool} {l : List α}
    (h : ∀ a ∈ l, p a = true) : l.dropWhile p = [] := by
  induction l with
  | nil => rfl
  | cons x xs ih =>
    rw [List.dropWhile_cons, if_pos (h x (List.mem_cons_self x xs))]
    exact ih fun a ha => h a (List.mem_cons_of_mem x ha)

theorem takeWhile_append_of_pred {p : α → Bool} {l r : List α}
    (h : ∀ a ∈ l, p a = true) : (l ++ r).takeWhile p = l ++ r.takeWhile p := by
  induction l with
  | nil => rfl
  | cons x xs ih =>
    rw [List.cons_append, List.takeWhile_cons, if_pos (h x (List.mem_cons_self x xs))]
    exact congrArg _ (ih fun a ha => h a (List.mem_cons_of_mem x ha))

theorem dropWhile_append_of_pred {p : α → Bool} {l r : List α}
    (h : ∀ a ∈ l, p a = true) : (l ++ r).dropWhile p = r.dropWhile p := by
  induction l with
  | nil => rfl
  | cons x xs ih =>
    rw [List.cons_append, List.dropWhile_cons, if_pos (h x (List.mem_cons_self x xs))]
    exact ih fun a ha => h a (List.mem_cons_of_mem x ha)

theorem head?_dropWhile_pred {p : α → Bool} {l : List α} {a : α}
    (h : (l.dropWhile p).head? = some a) : p a = false := by
  have := List.head?_dropWhile_not p l
  rw [h] at this
  exact this

theorem head?_takeWhile_pred {p : α → Bool} {l : List α} {a : α}
    (h : (l.takeWhile p).head? = some a) : l.head? = some a := by
  cases l with
  | nil => simp [List.takeWhile] at h
  | cons x xs =>
    rw [List.takeWhile_cons] at h
    by_cases hx : p x = true
    · rw [if_pos hx] at h
      simpa using h
    · rw [if_neg hx] at h
      simp at h

/-! ### Splitting and joining lines -/

/-- Model of `Array.join("\n")` and template formatting of entries back into
`KEY=VALUE` lines. -/
def joinNl : List Chars → Chars
  | [] => []
  | [l] => l
  | l :: ls => l ++ '\n' :: joinNl ls

def formatEntryLine (e : Environment) : Chars := e.name ++ '=' :: e.value

/-- Format a parsed entry list back into `KEY=VALUE` text. -/
def formatEntries (es : List Environment) : Chars := joinNl (es.map formatEntryLine)

theorem splitOnNl_ne_nil (s : Chars) : splitOnNl s ≠ [] := by
  induction s with
  | nil => simp [splitOnNl]
  | cons c rest ih =>
    rw [splitOnNl]
    by_cases h : c.toNat == 10
    · simp [h]
    · simp only [h]
      rcases hr : splitOnNl rest with _ | ⟨l, ls⟩
      · simp
      · simp

theorem splitOnNl_no_nl {l : Chars} (h : ∀ c ∈ l, ¬(c.toNat = 10)) :
    splitOnNl l = [l] := by
  induction l with
  | nil => rfl
  | cons c rest ih =>
    rw [splitOnNl]
    have hc : (c.toNat == 10) = false := by
      simpa using h c (List.mem_cons_self c rest)
    rw [hc]
    simp only [Bool.false_eq_true, if_false]
    rw [ih fun a ha => h a (List.mem_cons_of_mem c ha)]

theorem splitOnNl_append_nl {l r : Chars} (h : ∀ c ∈ l, ¬(c.toNat = 10)) :
    splitOnNl (l ++ '\n' :: r) = l :: splitOnNl r := by
  induction l with
  | nil => simp [splitOnNl]
  | cons c rest ih =>
    rw [List.cons_append, splitOnNl]
    have hc : (c.toNat == 10) = false := by
      simpa using h c (List.mem_cons_self c rest)
    rw [hc]
    simp only [Bool.false_eq_true, if_false]
    rw [ih fun a ha => h a (List.mem_cons_of_mem c ha)]

theorem joinNl_cons_cons (a b : Chars) (t : List Chars) :
    joinNl (a :: b :: t) = a ++ '\n' :: joinNl (b :: t) := rfl

theorem splitOnNl_joinNl {ls : List Chars} (hne : ls ≠ [])
    (h : ∀ l ∈ ls, ∀ c ∈ l, ¬(c.toNat = 10)) : splitOnNl (joinNl ls) = ls := by
  induction ls with
  | nil => exact absurd rfl hne
  | cons l rest ih =>
    cases rest with
    | nil =>
      rw [joinNl]
      exact splitOnNl_no_nl (h l (List.mem_cons_self l []))
    | cons l2 rest2 =>
      rw [joinNl_cons_cons, splitOnNl_append_nl (h l (List.mem_cons_self l _))]
      rw [ih (List.cons_ne_nil l2 rest2) fun x hx c hc => h x (List.mem_cons_of_mem l hx) c hc]

/-! ### Facts about the insertion-ordered map -/

def envNames (m : List Environment) : List Chars := m.map Environment.name

theorem envSet_names (m : List Environment) (k v : Chars) :
    envNames (envSet m k v)
      = if k ∈ envNames m then envNames m else envNames m ++ [k] := by
  induction m with
  | nil => simp [envSet, envNames]
  | cons e rest ih =>
    rw [envSet]
    by_cases he : e.name = k
    · have h1 : k ∈ envNames (e :: rest) := by
        simp only [envNames, List.map_cons, List.mem_cons]
        exact Or.inl he.symm
      rw [if_pos he, if_pos h1]
      simp only [envNames, List.map_cons, he]
    · by_cases hm : k ∈ envNames rest
      · have h1 : k ∈ envNames (e :: rest) := by
          simp only [envNames, List.map_cons, List.mem_cons]
          exact Or.inr hm
        rw [if_neg he, if_pos h1]
        have h2 : envNames (envSet rest k v) = envNames rest := by
          rw [ih, if_pos hm]
        simp only [envNames, List.map_cons] at h2 ⊢
        rw [h2]
      · have h1 : k ∉ envNames (e :: rest) := by
          simp only [envNames, List.map_cons, List.mem_cons]
          rintro (h | h)
          · exact he h.symm
          · exact hm h
        rw [if_neg he, if_neg h1]
        have h2 : envNames (envSet rest k v) = envNames rest ++ [k] := by
          rw [ih, if_neg hm]
        simp only [envNames, List.map_cons, List.cons_append] at h2 ⊢
        rw [h2]

theorem envSet_nodup {m : List Environment} (k v : Chars)
    (h : (envNames m).Nodup) : (envNames (envSet m k v)).Nodup := by
  rw [envSet_names]
  by_cases hm : k ∈ envNames m
  · rw [if_pos hm]
    exact h
  · rw [if_neg hm]
    simpa using List.Nodup.append h (List.nodup_singleton k) (by simpa using hm)

theorem mem_envSet {m : List Environment} {k v : Chars} {e : Environment}
    (h : e ∈ envSet m k v) : e ∈ m ∨ e = ⟨k, v⟩ := by
  induction m with
  | nil => simpa [envSet] using h
  | cons x rest ih =>
    rw [envSet] at h
    by_cases hx : x.name = k
    · rw [if_pos hx] at h
      rcases List.mem_cons.mp h with h | h
      · exact Or.inr h
      · exact Or.inl (List.mem_cons_of_mem x h)
    · rw [if_neg hx] at h
      rcases List.mem_cons.mp h with h | h
      · exact Or.inl (h ▸ List.mem_cons_self x rest)
      · rcases ih h with h | h
        · exact Or.inl (List.mem_cons_of_mem x h)
        · exact Or.inr h

theorem envSet_append {m : List Environment} {k v : Chars}
    (h : ∀ e ∈ m, e.name ≠ k) : envSet m k v = m ++ [⟨k, v⟩] := by
  induction m with
  | nil => rfl
  | cons x rest ih =>
    rw [envSet, if_neg (h x (List.mem_cons_self x rest))]
    rw [ih fun e he => h e (List.mem_cons_of_mem x he), List.cons_append]

theorem mem_envSet_self (m : List Environment) (k v : Chars) :
    (⟨k, v⟩ : Environment) ∈ envSet m k v := by
  induction m with
  | nil => simp [envSet]
  | cons x rest ih =>
    rw [envSet]
    by_cases hx : x.name = k
    · rw [if_pos hx]
      exact List.mem_cons_self _ _
    · rw [if_neg hx]
      exact List.mem_cons_of_mem _ ih

theorem mem_envSet_of_ne {m : List Environment} {k v : Chars} {e : Environment}
    (he : e ∈ m) (hne : e.name ≠ k) : e ∈ envSet m k v := by
  induction m with
  | nil => simp at he
  | cons x rest ih =>
    rw [envSet]
    by_cases hx : x.name = k
    · rw [if_pos hx]
      rcases List.mem_cons.mp he with h | h
      · exact absurd (by rw [h]; exact hx) hne
      · exact List.mem_cons_of_mem _ h
    · rw [if_neg hx]
      rcases List.mem_cons.mp he with h | h
      · exact h ▸ List.mem_cons_self _ _
      · exact List.mem_cons_of_mem _ (ih h)

theorem envSet_overwrite {m : List Environment} (k v : Chars)
    (hnd : (envNames m).Nodup) :
    ∀ e ∈ envSet m k v, (e.name = k ∧ e.value = v) ∨ (e ∈ m ∧ e.name ≠ k) := by
  induction m with
  | nil =>
    intro e he
    simp only [envSet, List.mem_singleton] at he
    exact Or.inl ⟨by rw [he], by rw [he]⟩
  | cons x rest ih =>
    intro e he
    rw [envSet] at he
    by_cases hx : x.name = k
    · rw [if_pos hx] at he
      rcases List.mem_cons.mp he with h | h
      · exact Or.inl ⟨by rw [h], by rw [h]⟩
      · have hk : k ∉ envNames rest := by
          have h2 := hnd
          rw [show envNames (x :: rest) = x.name :: envNames rest from rfl] at h2
          exact hx ▸ (List.nodup_cons.mp h2).1
        refine Or.inr ⟨List.mem_cons_of_mem _ h, fun hek => hk ?_⟩
        rw [← hek]
        exact List.mem_map_of_mem Environment.name h
    · rw [if_neg hx] at he
      rcases List.mem_cons.mp he with h | h
      · exact Or.inr ⟨h ▸ List.mem_cons_self _ _, by rw [h]; exact hx⟩
      · have hnd2 : (envNames rest).Nodup := by
          have h2 := hnd
          rw [show envNames (x :: rest) = x.name :: envNames rest from rfl] at h2
          exact (List.nodup_cons.mp h2).2
        rcases ih hnd2 e h with h2 | h2
        · exact Or.inl h2
        · exact Or.inr ⟨List.mem_cons_of_mem _ h2.1, h2.2⟩

/-! ### Decomposing the line fold -/

/-- The environment component of one `forEach` iteration. -/
def envStep (m : List Environment) (line : Chars) : List Environment :=
  match matchLine line with
  | some (k, v) => envSet m k (postprocessValue v)
  | none => m

/-- A line is recorded as a parse error iff it fails the regex and is not
blank or a comment. -/
def errLine (l : Chars) : Bool := (matchLine l).isNone && !(isCommentOrBlank l)

/-- The map of the optional baseline (lines 40–46). -/
def initMapOf : Option (List Environment) → List Environment
  | some es => es.foldl (fun m e => envSet m e.name e.value) []
  | none => []

theorem foldl_processLine (lines : List Chars) (m : List Environment) (errs : List Chars) :
    lines.foldl processLine (m, errs)
      = (lines.foldl envStep m, errs ++ lines.filter errLine) := by
  induction lines generalizing m errs with
  | nil => simp
  | cons l rest ih =>
    rw [List.foldl_cons, List.foldl_cons, List.filter_cons]
    rcases h : matchLine l with _ | ⟨k, v⟩
    · by_cases hc : isCommentOrBlank l = true
      · have he : errLine l = false := by simp [errLine, hc]
        rw [he]
        simp only [Bool.false_eq_true, if_false]
        have hp : processLine (m, errs) l = (m, errs) := by
          simp [processLine, h, hc]
        have hs : envStep m l = m := by
          simp [envStep, h]
        rw [hp, hs, ih]
      · have he : errLine l = true := by
          simp [errLine, h, Bool.not_eq_true', Bool.not_eq_false] at hc ⊢
          exact hc
        rw [he, if_pos rfl]
        have hp : processLine (m, errs) l = (m, errs ++ [l]) := by
          simp [processLine, h, hc]
        have hs : envStep m l = m := by
          simp [envStep, h]
        rw [hp, hs, ih, List.append_assoc]
        rfl
    · have he : errLine l = false := by simp [errLine, h]
      rw [he]
      simp only [Bool.false_eq_true, if_false]
      have hp : processLine (m, errs) l = (envSet m k (postprocessValue v), errs) := by
        simp [processLine, h]
      have hs : envStep m l = envSet m k (postprocessValue v) := by
        simp [envStep, h]
      rw [hp, hs, ih]

theorem CreateFromContent_unfold (content envFile : Chars)
    (initialEnv : Option (List Environment)) :
    CreateFromContent content envFile initialEnv =
      { Env := (splitOnNl (stripBom content)).foldl envStep (initMapOf initialEnv)
        Warning :=
          if (splitOnNl (stripBom content)).filter errLine = [] then none
          else some (warnHeader envFile
            ++ aggErrors ((splitOnNl (stripBom content)).filter errLine)) } := by
  simp only [CreateFromContent]
  rw [foldl_processLine]
  cases initialEnv <;> simp [initMapOf]

/-! ### Inverting a successful line match -/

theorem matchLine_inv {line k v : Chars} (h : matchLine line = some (k, v)) :
    k = (line.dropWhile isWs).takeWhile isKeyChar ∧ k ≠ [] ∧
    ∃ s : Chars, v = (s.dropWhile isWs).takeWhile isDotChar := by
  simp only [matchLine] at h
  by_cases hk : (line.dropWhile isWs).takeWhile isKeyChar = []
  · rw [if_pos hk] at h
    simp at h
  · rw [if_neg hk] at h
    split at h
    · rename_i c s heq
      split at h
      · split at h
        · simp only [Option.some.injEq, Prod.mk.injEq] at h
          obtain ⟨h1, h2⟩ := h
          exact ⟨h1.symm, fun hke => hk (h1.trans hke), s, h2.symm⟩
        · simp at h
      · simp at h
    · simp at h

theorem matchLine_key_ok {line k v : Chars} (h : matchLine line = some (k, v)) :
    k ≠ [] ∧ ∀ c ∈ k, isKeyChar c = true := by
  obtain ⟨hk, hne, _⟩ := matchLine_inv h
  exact ⟨hne, fun c hc => mem_takeWhile_pred (hk ▸ hc)⟩

theorem matchLine_val_ok {line k v : Chars} (h : matchLine line = some (k, v)) :
    (∀ c ∈ v, isDotChar c = true) ∧ ∀ c, v.head? = some c → isWs c = false := by
  obtain ⟨_, _, s, hv⟩ := matchLine_inv h
  constructor
  · exact fun c hc => mem_takeWhile_pred (hv ▸ hc)
  · intro c hc
    rw [hv] at hc
    exact head?_dropWhile_pred (head?_takeWhile_pred hc)

/-! ### Post-processing facts -/

theorem isDqWrapped_false_of_head {v : Chars} {c : Char} (hh : v.head? = some c)
    (hq : isQuote c = false) : isDqWrapped v = false := by
  unfold isDqWrapped
  rw [hh]
  rcases hl : v.getLast? with _ | b
  · rfl
  · simp only [isQuote, Bool.or_eq_false_iff, beq_eq_false_iff_ne, ne_eq] at hq
    have h2 : (c.toNat == 34) = false := by
      simpa using hq.2
    simp [h2]

theorem stripQuotes_id {v : Chars} (hh : ∀ c, v.head? = some c → isQuote c = false)
    (hl : ∀ c, v.getLast? = some c → isQuote c = false) : stripQuotes v = v := by
  unfold stripQuotes
  rcases v with _ | ⟨c, rest⟩
  · rfl
  · have h1 : isQuote c = false := hh c rfl
    simp only [h1, Bool.false_eq_true, if_false]
    rcases hgl : (c :: rest).getLast? with _ | b
    · rfl
    · simp [hl b hgl]

theorem postprocessValue_id {v : Chars}
    (hh : ∀ c, v.head? = some c → isQuote c = false)
    (hl : ∀ c, v.getLast? = some c → isQuote c = false) : postprocessValue v = v := by
  unfold postprocessValue
  have hw : isDqWrapped v = false := by
    rcases v with _ | ⟨c, rest⟩
    · rfl
    · exact isDqWrapped_false_of_head rfl (hh c rfl)
  rw [hw]
  simp only [Bool.false_eq_true, if_false]
  exact stripQuotes_id hh hl

/-! ### Parsing a formatted `KEY=VALUE` line -/

theorem matchLine_fmt {k v : Chars} (hk : k ≠ [])
    (hkc : ∀ c ∈ k, isKeyChar c = true)
    (hv : ∀ c ∈ v, isDotChar c = true)
    (hvh : ∀ c, v.head? = some c → isWs c = false) :
    matchLine (k ++ '=' :: v) = some (k, v) := by
  have hknws : ∀ c ∈ k, ¬(isWs c = true) := by
    intro c hc
    rw [keyChar_not_ws (hkc c hc)]
    exact Bool.false_ne_true
  have h1 : (k ++ '=' :: v).dropWhile isWs = k ++ '=' :: v := by
    rcases hkk : k with _ | ⟨c, k2⟩
    · exact absurd hkk hk
    · rw [List.cons_append, List.dropWhile_cons_of_neg
        (hknws c (hkk ▸ List.mem_cons_self c k2))]
  have heq : isKeyChar '=' = false := by decide
  have h2 : (k ++ '=' :: v).takeWhile isKeyChar = k := by
    rw [takeWhile_append_of_pred hkc, List.takeWhile_cons_of_neg (by simp [heq]),
      List.append_nil]
  have h3 : (k ++ '=' :: v).dropWhile isKeyChar = '=' :: v := by
    rw [dropWhile_append_of_pred hkc, List.dropWhile_cons_of_neg (by simp [heq])]
  have h4 : ('=' :: v).dropWhile isWs = '=' :: v :=
    List.dropWhile_cons_of_neg (by decide)
  have h5 : v.dropWhile isWs = v := by
    rcases hvv : v with _ | ⟨c, v2⟩
    · rfl
    · refine List.dropWhile_cons_of_neg ?_
      rw [hvh c (by rw [hvv]; rfl)]
      exact Bool.false_ne_true
  have h6 : v.takeWhile isDotChar = v := takeWhile_all_of_pred hv
  have h7 : v.dropWhile isDotChar = [] := dropWhile_nil_of_pred hv
  simp only [matchLine, h1, h2, h3, h4, h5, h6, h7]
  rw [if_neg hk]
  simp

/-! ### Invariants of the accumulated environment -/

def nameOk (e : Environment) : Prop :=
  e.name ≠ [] ∧ ∀ c ∈ e.name, isKeyChar c = true

theorem envFold_nodup (lines : List Chars) (m : List Environment)
    (h : (envNames m).Nodup) : (envNames (lines.foldl envStep m)).Nodup := by
  induction lines generalizing m with
  | nil => exact h
  | cons l rest ih =>
    rw [List.foldl_cons]
    refine ih _ ?_
    unfold envStep
    rcases hm : matchLine l with _ | ⟨k, v⟩
    · exact h
    · exact envSet_nodup _ _ h

theorem envFold_nameOk (lines : List Chars) (m : List Environment)
    (h : ∀ e ∈ m, nameOk e) : ∀ e ∈ lines.foldl envStep m, nameOk e := by
  induction lines generalizing m with
  | nil => exact h
  | cons l rest ih =>
    rw [List.foldl_cons]
    refine ih _ ?_
    intro e he
    unfold envStep at he
    rcases hm : matchLine l with _ | ⟨k, v⟩
    · rw [hm] at he
      exact h e he
    · rw [hm] at he
      rcases mem_envSet he with h2 | h2
      · exact h e h2
      · obtain ⟨hne, hkc⟩ := matchLine_key_ok hm
        rw [h2]
        exact ⟨hne, hkc⟩

theorem initMapOf_nodup (initialEnv : Option (List Environment)) :
    (envNames (initMapOf initialEnv)).Nodup := by
  rcases initialEnv with _ | es
  · simp [initMapOf, envNames]
  · show (envNames (es.foldl (fun m e => envSet m e.name e.value) [])).Nodup
    have key : ∀ (es : List Environment) (m : List Environment), (envNames m).Nodup →
        (envNames (es.foldl (fun m e => envSet m e.name e.value) m)).Nodup := by
      intro es
      induction es with
      | nil => exact fun m h => h
      | cons e rest ih =>
        intro m h
        rw [List.foldl_cons]
        exact ih _ (envSet_nodup _ _ h)
    exact key es [] (by simp [envNames])

/-! ### Round-trip machinery -/

theorem keyChar_not_bom {c : Char} (h : isKeyChar c = true) : ¬(c.toNat = 0xFEFF) := by
  simp only [isKeyChar, isWordChar, Bool.or_eq_true, Bool.and_eq_true, beq_iff_eq,
    decide_eq_true_eq] at h
  omega

theorem stripBom_id {l : Chars} (h : ∀ c, l.head? = some c → ¬(c.toNat = 0xFEFF)) :
    stripBom l = l := by
  rcases l with _ | ⟨c, rest⟩
  · rfl
  · have hc : (c.toNat == 0xFEFF) = false := by
      simpa using h c rfl
    simp [stripBom, hc]

/-- A value that survives re-parsing unchanged: no line terminators, and
no leading whitespace or quote and no trailing quote (those would be
consumed by the grammar or the quote-stripping of the second parse). -/
def goodVal (v : Chars) : Bool :=
  v.all isDotChar &&
  (match v.head? with
   | some c => !(isWs c) && !(isQuote c)
   | none => true) &&
  (match v.getLast? with
   | some c => !(isQuote c)
   | none => true)

theorem goodVal_unpack {v : Chars} (h : goodVal v = true) :
    (∀ c ∈ v, isDotChar c = true) ∧
    (∀ c, v.head? = some c → isWs c = false ∧ isQuote c = false) ∧
    (∀ c, v.getLast? = some c → isQuote c = false) := by
  unfold goodVal at h
  rw [Bool.and_eq_true, Bool.and_eq_true] at h
  obtain ⟨⟨ha, hh⟩, hl⟩ := h
  refine ⟨fun c hc => (List.all_eq_true.mp ha) c hc, ?_, ?_⟩
  · intro c hc
    rw [hc] at hh
    simp only [Bool.and_eq_true, Bool.not_eq_true'] at hh
    exact hh
  · intro c hc
    rw [hc] at hl
    simp only [Bool.not_eq_true'] at hl
    exact hl

theorem envFold_fmt : ∀ (es acc : List Environment),
    (∀ e ∈ es, nameOk e) → (∀ e ∈ es, goodVal e.value = true) →
    (envNames (acc ++ es)).Nodup →
    (es.map formatEntryLine).foldl envStep acc = acc ++ es := by
  intro es
  induction es with
  | nil =>
    intro acc _ _ _
    simp
  | cons e rest ih =>
    intro acc hok hgood hnodup
    rw [List.map_cons, List.foldl_cons]
    have hdisj : ∀ x ∈ acc, x.name ≠ e.name := by
      intro x hx hxe
      have : (envNames acc ++ e.name :: envNames rest).Nodup := by
        simpa [envNames] using hnodup
      rw [List.nodup_append] at this
      exact this.2.2 (hxe ▸ List.mem_map_of_mem Environment.name hx)
        (List.mem_cons_self _ _)
    have hone : envStep acc (formatEntryLine e) = acc ++ [e] := by
      obtain ⟨hne, hkc⟩ := hok e (List.mem_cons_self e rest)
      obtain ⟨hg1, hg2, hg3⟩ := goodVal_unpack (hgood e (List.mem_cons_self e rest))
      unfold envStep
      rw [show formatEntryLine e = e.name ++ '=' :: e.value from rfl]
      rw [matchLine_fmt hne hkc hg1 (fun c hc => (hg2 c hc).1)]
      show envSet acc e.name (postprocessValue e.value) = acc ++ [e]
      rw [postprocessValue_id (fun c hc => (hg2 c hc).2) hg3, envSet_append hdisj]
    rw [hone]
    have hres : (acc ++ [e]) ++ rest = acc ++ e :: rest := by simp
    rw [show acc ++ e :: rest = (acc ++ [e]) ++ rest from hres.symm]
    exact ih (acc ++ [e])
      (fun x hx => hok x (List.mem_cons_of_mem e hx))
      (fun x hx => hgood x (List.mem_cons_of_mem e hx))
      (by rw [hres]; exact hnodup)

theorem createFromContent_env_eq (content envFile : Chars)
    (initialEnv : Option (List Environment)) :
    (CreateFromContent content envFile initialEnv).Env
      = (splitOnNl (stripBom content)).foldl envStep (initMapOf initialEnv) := by
  rw [CreateFromContent_unfold]

theorem createFromContent_nodup (content envFile : Chars)
    (initialEnv : Option (List Environment)) :
    (envNames (CreateFromContent content envFile initialEnv).Env).Nodup := by
  rw [createFromContent_env_eq]
  exact envFold_nodup _ _ (initMapOf_nodup _)

theorem createFromContent_nameOk (content envFile : Chars) :
    ∀ e ∈ (CreateFromContent content envFile none).Env, nameOk e := by
  rw [createFromContent_env_eq]
  exact envFold_nameOk _ _ (by simp [initMapOf])

theorem roundtrip_env (content envFile : Chars)
    (h : ∀ e ∈ (CreateFromContent content envFile none).Env, goodVal e.value = true) :
    (CreateFromContent (formatEntries ((CreateFromContent content envFile none).Env))
        envFile none).Env
      = (CreateFromContent content envFile none).Env := by
  have hok := createFromContent_nameOk content envFile
  have hnodup := createFromContent_nodup content envFile none
  cases hcase : (CreateFromContent content envFile none).Env with
  | nil => rfl
  | cons e0 Erest =>
    rw [hcase] at h hok hnodup
    have hnn : ∀ l ∈ (e0 :: Erest).map formatEntryLine, ∀ c ∈ l, ¬(c.toNat = 10) := by
      intro l hl c hc
      obtain ⟨e, he, rfl⟩ := List.mem_map.mp hl
      rw [show formatEntryLine e = e.name ++ '=' :: e.value from rfl] at hc
      rcases List.mem_append.mp hc with hc | hc
      · exact keyChar_not_nl ((hok e he).2 c hc)
      · rcases List.mem_cons.mp hc with hc | hc
        · rw [hc]
          decide
        · exact dotChar_not_nl ((goodVal_unpack (h e he)).1 c hc)
    have hsplit : splitOnNl (formatEntries (e0 :: Erest))
        = (e0 :: Erest).map formatEntryLine := by
      unfold formatEntries
      exact splitOnNl_joinNl (by simp) hnn
    obtain ⟨hne0, hkc0⟩ := hok e0 (List.mem_cons_self e0 Erest)
    rcases hn : e0.name with _ | ⟨c, k2⟩
    · exact absurd hn hne0
    · have hc0 : isKeyChar c = true := hkc0 c (by rw [hn]; exact List.mem_cons_self _ _)
      have hhead : (formatEntries (e0 :: Erest)).head? = some c := by
        unfold formatEntries
        rw [List.map_cons]
        cases Erest with
        | nil =>
          rw [List.map_nil, show joinNl [formatEntryLine e0] = formatEntryLine e0 from rfl]
          rw [show formatEntryLine e0 = e0.name ++ '=' :: e0.value from rfl, hn]
          rfl
        | cons e1 t2 =>
          rw [List.map_cons, joinNl_cons_cons]
          rw [show formatEntryLine e0 = e0.name ++ '=' :: e0.value from rfl, hn]
          rfl
      have hbom : stripBom (formatEntries (e0 :: Erest)) = formatEntries (e0 :: Erest) := by
        refine stripBom_id ?_
        intro c2 hc2
        rw [hhead] at hc2
        injection hc2 with hc2
        exact hc2 ▸ keyChar_not_bom hc0
      rw [createFromContent_env_eq, hbom, hsplit]
      have hfold := envFold_fmt (e0 :: Erest) [] hok h (by simpa [envNames] using hnodup)
      simpa using hfold

/-! ### The shape of the aggregated warning -/

theorem char_eq_of_toNat {c d : Char} (h : c.toNat = d.toNat) : c = d :=
  Char.ext (UInt32.ext h)

def joinCommaSep : List Chars → Chars
  | [] => []
  | [l] => l
  | l :: ls => l ++ ',' :: ' ' :: joinCommaSep ls

theorem joinCommaSep_cons_cons (a b : Chars) (t : List Chars) :
    joinCommaSep (a :: b :: t) = a ++ ',' :: ' ' :: joinCommaSep (b :: t) := rfl

/-- The warning body as the specification words it: every offending line
verbatim in double quotes, the items separated by a comma and a space,
the whole ending with a period. -/
def quotedListing (errs : List Chars) : Chars :=
  joinCommaSep (errs.map fun e => '"' :: (e ++ ['"'])) ++ ['.']

theorem aggErrors_eq_quoted : ∀ errs : List Chars, errs ≠ [] →
    aggErrors errs = quotedListing errs := by
  intro errs
  induction errs with
  | nil => exact fun h => absurd rfl h
  | cons e rest ih =>
    intro _
    cases rest with
    | nil => simp [aggErrors, quotedListing, joinCommaSep]
    | cons e2 t2 =>
      have h3 : aggErrors (e :: e2 :: t2)
          = '"' :: (e ++ ['"', ',', ' ']) ++ aggErrors (e2 :: t2) := rfl
      rw [h3, ih (List.cons_ne_nil e2 t2)]
      simp only [quotedListing, List.map_cons, joinCommaSep_cons_cons]
      simp

/-! ### Persistence of a settled install promise -/

theorem stepNewCli_settled_persist {s : PState} (e : PEvent)
    (h : s.settled.isSome = true) : (stepNewCli s e).settled = s.settled := by
  cases e with
  | timeoutE => by_cases hc : s.timerCleared = true <;> simp [stepNewCli, settleWith, hc, h]
  | exitE c => by_cases hc : c ≠ 0 <;> simp [stepNewCli, settleWith, hc, h]
  | dataE => rfl

theorem stepOldCli_settled_persist {s : PState} (e : PEvent)
    (h : s.settled.isSome = true) : (stepOldCli s e).settled = s.settled := by
  cases e with
  | timeoutE => by_cases hc : s.timerCleared = true <;> simp [stepOldCli, settleWith, hc, h]
  | exitE c => rfl
  | dataE => by_cases hc : s.sentOverride = true <;> simp [stepOldCli, settleWith, hc, h]

theorem foldl_stepNewCli_settled (tr : List PEvent) :
    ∀ s : PState, s.settled.isSome = true → (tr.foldl stepNewCli s).settled = s.settled := by
  induction tr with
  | nil => exact fun s _ => rfl
  | cons e rest ih =>
    intro s h
    rw [List.foldl_cons]
    have hstep := stepNewCli_settled_persist (s := s) e h
    rw [ih _ (by rw [hstep]; exact h), hstep]

theorem foldl_stepOldCli_settled (tr : List PEvent) :
    ∀ s : PState, s.settled.isSome = true → (tr.foldl stepOldCli s).settled = s.settled := by
  induction tr with
  | nil => exact fun s _ => rfl
  | cons e rest ih =>
    intro s h
    rw [List.foldl_cons]
    have hstep := stepOldCli_settled_persist (s := s) e h
    rw [ih _ (by rw [hstep]; exact h), hstep]

theorem stepNewCli_killed_persist {s : PState} (e : PEvent)
    (h : s.killed = true) : (stepNewCli s e).killed = true := by
  cases e with
  | timeoutE =>
    by_cases hc : s.timerCleared = true <;>
      by_cases hs : s.settled.isSome = true <;> simp [stepNewCli, settleWith, hc, hs, h]
  | exitE c =>
    by_cases hc : c ≠ 0 <;>
      by_cases hs : s.settled.isSome = true <;> simp [stepNewCli, settleWith, hc, hs, h]
  | dataE => exact h

theorem foldl_stepNewCli_killed (tr : List PEvent) :
    ∀ s : PState, s.killed = true → (tr.foldl stepNewCli s).killed = true := by
  induction tr with
  | nil => exact fun s h => h
  | cons e rest ih =>
    intro s h
    rw [List.foldl_cons]
    exact ih _ (stepNewCli_killed_persist e h)

theorem stepOldCli_killed_persist {s : PState} (e : PEvent)
    (h : s.killed = true) : (stepOldCli s e).killed = true := by
  cases e with
  | timeoutE =>
    by_cases hc : s.timerCleared = true <;>
      by_cases hs : s.settled.isSome = true <;> simp [stepOldCli, settleWith, hc, hs, h]
  | exitE c => exact h
  | dataE =>
    by_cases hc : s.sentOverride = true <;>
      by_cases hs : s.settled.isSome = true <;> simp [stepOldCli, settleWith, hc, hs, h]

theorem foldl_stepOldCli_killed (tr : List PEvent) :
    ∀ s : PState, s.killed = true → (tr.foldl stepOldCli s).killed = true := by
  induction tr with
  | nil => exact fun s h => h
  | cons e rest ih =>
    intro s h
    rw [List.foldl_cons]
    exact ih _ (stepOldCli_killed_persist e h)

theorem stepOldCli_stdin_persist {s : PState} (e : PEvent) {w : String}
    (h : w ∈ s.stdinWrites) : w ∈ (stepOldCli s e).stdinWrites := by
  cases e with
  | timeoutE =>
    by_cases hc : s.timerCleared = true <;>
      by_cases hs : s.settled.isSome = true <;> simp [stepOldCli, settleWith, hc, hs, h]
  | exitE c => exact h
  | dataE =>
    by_cases hc : s.sentOverride = true <;>
      by_cases hs : s.settled.isSome = true <;> simp [stepOldCli, settleWith, hc, hs, h]

theorem foldl_stepOldCli_stdin (tr : List PEvent) :
    ∀ s : PState, ∀ w : String, w ∈ s.stdinWrites →
      w ∈ (tr.foldl stepOldCli s).stdinWrites := by
  induction tr with
  | nil => exact fun s w h => h
  | cons e rest ih =>
    intro s w h
    rw [List.foldl_cons]
    exact ih _ _ (stepOldCli_stdin_persist e h)

theorem runNewCli_settles (tr : List PEvent)
    (h : PEvent.timeoutE ∈ tr ∨ ∃ c, PEvent.exitE c ∈ tr) :
    (runNewCli tr).settled.isSome = true := by
  induction tr with
  | nil =>
    rcases h with h | ⟨c, h⟩ <;> simp at h
  | cons e rest ih =>
    cases e with
    | timeoutE =>
      unfold runNewCli
      rw [List.foldl_cons]
      have hfirst : (stepNewCli initPState PEvent.timeoutE).settled
          = some (Except.error timeoutRejMsg) := by
        simp [stepNewCli, settleWith, initPState]
      rw [foldl_stepNewCli_settled rest _ (by rw [hfirst]; rfl), hfirst]
      rfl
    | exitE c =>
      unfold runNewCli
      rw [List.foldl_cons]
      have hsome : (stepNewCli initPState (PEvent.exitE c)).settled.isSome = true := by
        by_cases hc : c ≠ 0 <;> simp [stepNewCli, settleWith, initPState, hc]
      rw [foldl_stepNewCli_settled rest _ hsome]
      exact hsome
    | dataE =>
      have h2 : runNewCli (PEvent.dataE :: rest) = runNewCli rest := rfl
      rw [h2]
      apply ih
      rcases h with h | ⟨c, h⟩
      · rcases List.mem_cons.mp h with h | h
        · exact absurd h (by simp)
        · exact Or.inl h
      · rcases List.mem_cons.mp h with h | h
        · exact absurd h (by simp)
        · exact Or.inr ⟨c, h⟩

theorem runOldCli_settles (tr : List PEvent)
    (h : PEvent.timeoutE ∈ tr ∨ PEvent.dataE ∈ tr) :
    (runOldCli tr).settled.isSome = true := by
  induction tr with
  | nil => rcases h with h | h <;> simp at h
  | cons e rest ih =>
    cases e with
    | timeoutE =>
      unfold runOldCli
      rw [List.foldl_cons]
      have hfirst : (stepOldCli initPState PEvent.timeoutE).settled
          = some (Except.error timeoutRejMsg) := by
        simp [stepOldCli, settleWith, initPState]
      rw [foldl_stepOldCli_settled rest _ (by rw [hfirst]; rfl), hfirst]
      rfl
    | dataE =>
      unfold runOldCli
      rw [List.foldl_cons]
      have hfirst : (stepOldCli initPState PEvent.dataE).settled
          = some (Except.ok ()) := by
        simp [stepOldCli, settleWith, initPState]
      rw [foldl_stepOldCli_settled rest _ (by rw [hfirst]; rfl), hfirst]
      rfl
    | exitE c =>
      have h2 : runOldCli (PEvent.exitE c :: rest) = runOldCli rest := rfl
      rw [h2]
      apply ih
      rcases h with h | h
      · rcases List.mem_cons.mp h with h | h
        · exact absurd h (by simp)
        · exact Or.inl h
      · rcases List.mem_cons.mp h with h | h
        · exact absurd h (by simp)
        · exact Or.inr h

/-! ### Computing the applyUpdate traces -/

theorem applyUpdateActs_succ0 (defVal : String) (dl : Nat → Bool) (installOk : Bool)
    (cfg0 : Cfg) (h0 : dl 0 = true) :
    applyUpdateActs defVal dl true installOk cfg0
      = [Act.download 0 true]
        ++ (if installOk then [Act.installA true, Act.clearTimerA, Act.resolveA]
            else [Act.installA false, Act.rejectA installFailMsg]) := by
  cases hio : installOk <;>
    simp [applyUpdateActs, applyUpdateLoop, h0]

theorem applyUpdateActs_fail_nofb (defVal : String) (dl : Nat → Bool) (installOk : Bool)
    (cfg0 : Cfg) (h0 : dl 0 = false)
    (hg : ¬(Cfg.get cfg0 defVal ≠ ("off") ∧ cfg0.globalVal ≠ some ("off"))) :
    applyUpdateActs defVal dl true installOk cfg0
      = [Act.download 0 false, Act.rejectA dlFailMsg] := by
  simp [applyUpdateActs, applyUpdateLoop, h0, hg]

theorem applyUpdateActs_fail_fb_fail (defVal : String) (dl : Nat → Bool) (installOk : Bool)
    (cfg0 : Cfg) (h0 : dl 0 = false) (hg1 : Cfg.get cfg0 defVal ≠ ("off"))
    (hg2 : cfg0.globalVal ≠ some ("off")) (h1 : dl 1 = false) :
    applyUpdateActs defVal dl true installOk cfg0
      = [Act.download 0 false, Act.updateCfg (some ("off")), Act.download 1 false,
         Act.updateCfg cfg0.globalVal, Act.rejectA dlOffFailMsg] := by
  simp [applyUpdateActs, applyUpdateLoop, h0, h1, hg1, hg2]

theorem applyUpdateActs_fail_fb_succ (defVal : String) (dl : Nat → Bool) (installOk : Bool)
    (cfg0 : Cfg) (h0 : dl 0 = false) (hg1 : Cfg.get cfg0 defVal ≠ ("off"))
    (hg2 : cfg0.globalVal ≠ some ("off")) (h1 : dl 1 = true) :
    applyUpdateActs defVal dl true installOk cfg0
      = [Act.download 0 false, Act.updateCfg (some ("off")), Act.download 1 true,
         Act.updateCfg cfg0.globalVal, Act.telemetryA]
        ++ (if installOk then [Act.installA true, Act.clearTimerA, Act.resolveA]
            else [Act.installA false, Act.rejectA installFailMsg]) := by
  cases hio : installOk <;>
    simp [applyUpdateActs, applyUpdateLoop, h0, h1, hg1, hg2]

/-! ## Claim theorems -/

/-- C1: for every input text and baseline, the `Warning` field of the result
of `ParsedEnvironmentFile.CreateFromContent` is null iff every line of the
text that is not blank and not a comment matches the key=value grammar;
when it is not null it is the single localized string that lists every
unparseable line verbatim, each wrapped in double quotes, separated by a
comma and a space, and ending with a period. -/
theorem warning_null_iff_and_listing (content envFile : Chars)
    (initialEnv : Option (List Environment)) :
    ((CreateFromContent content envFile initialEnv).Warning
      = if (splitOnNl (stripBom content)).filter errLine = [] then none
        else some (warnHeader envFile
          ++ quotedListing ((splitOnNl (stripBom content)).filter errLine)))
    ∧ ((CreateFromContent content envFile initialEnv).Warning = none ↔
        ∀ l ∈ splitOnNl (stripBom content),
          (matchLine l).isSome = true ∨ isCommentOrBlank l = true) := by
  have hchar : ∀ l : Chars, errLine l = false ↔
      ((matchLine l).isSome = true ∨ isCommentOrBlank l = true) := by
    intro l
    rcases hM : matchLine l with _ | kv <;>
      by_cases hC : isCommentOrBlank l = true <;> simp [errLine, hM, hC]
  have hw : (CreateFromContent content envFile initialEnv).Warning
      = if (splitOnNl (stripBom content)).filter errLine = [] then none
        else some (warnHeader envFile
          ++ aggErrors ((splitOnNl (stripBom content)).filter errLine)) := by
    rw [CreateFromContent_unfold]
  constructor
  · rw [hw]
    by_cases hfe : (splitOnNl (stripBom content)).filter errLine = []
    · rw [if_pos hfe, if_pos hfe]
    · rw [if_neg hfe, if_neg hfe, aggErrors_eq_quoted _ hfe]
  · rw [hw]
    by_cases hfe : (splitOnNl (stripBom content)).filter errLine = []
    · rw [if_pos hfe]
      rw [List.filter_eq_nil_iff] at hfe
      constructor
      · intro _ l hl
        exact (hchar l).mp (by rw [Bool.eq_false_iff]; exact hfe l hl)
      · intro _
        rfl
    · rw [if_neg hfe]
      constructor
      · intro hcontra
        exact absurd hcontra (by simp)
      · intro hall
        exfalso
        apply hfe
        rw [List.filter_eq_nil_iff]
        intro l hl
        rw [Bool.not_eq_true]
        exact (hchar l).mpr (hall l hl)

/-- C1 witness: a concrete text whose only lines match or are comments has
a null warning, established through the iff of the claim theorem. -/
theorem warning_null_iff_and_listing_w :
    (CreateFromContent (("A=1\n# note\n\nB=2").data) (("f").data) none).Warning = none :=
  (warning_null_iff_and_listing (("A=1\n# note\n\nB=2").data) (("f").data) none).2.mpr
    (by decide)

/-- C2: for every input text and baseline the emitted entry list has
pairwise distinct names; the result is produced by applying the baseline
first and then folding the file's assignments in file order, where every
single assignment leaves the name order unchanged when the name already
exists (the overwritten name keeps its first-seen position, receives the
new value, and every entry with another name is untouched) and appends a
name not seen before at the end; and the baseline entry A=1 merged with
file content A=2, B=3 yields exactly A=2 then B=3. -/
theorem entries_unique_names_and_merge_order (content envFile : Chars)
    (initialEnv : Option (List Environment)) :
    (envNames (CreateFromContent content envFile initialEnv).Env).Nodup
    ∧ (CreateFromContent content envFile initialEnv).Env
        = (splitOnNl (stripBom content)).foldl envStep (initMapOf initialEnv)
    ∧ (∀ (m : List Environment) (k v : Chars),
        envNames (envSet m k v)
          = if k ∈ envNames m then envNames m else envNames m ++ [k])
    ∧ (∀ (m : List Environment) (k v : Chars),
        (⟨k, v⟩ : Environment) ∈ envSet m k v)
    ∧ (∀ (m : List Environment) (k v : Chars) (e : Environment),
        e ∈ m → e.name ≠ k → e ∈ envSet m k v)
    ∧ (∀ (m : List Environment) (k v : Chars), (envNames m).Nodup →
        ∀ e ∈ envSet m k v, (e.name = k ∧ e.value = v) ∨ (e ∈ m ∧ e.name ≠ k))
    ∧ (CreateFromContent (("A=2\nB=3").data) ([])
        (some [⟨("A").data, ("1").data⟩])).Env
        = [⟨("A").data, ("2").data⟩, ⟨("B").data, ("3").data⟩] :=
  ⟨createFromContent_nodup content envFile initialEnv,
    createFromContent_env_eq content envFile initialEnv,
    fun m k v => envSet_names m k v,
    fun m k v => mem_envSet_self m k v,
    fun _ _ _ _ he hne => mem_envSet_of_ne he hne,
    fun _ k v hnd => envSet_overwrite k v hnd,
    by decide⟩

/-- C2 witness: the overwrite clause applied to the concrete one-entry
map with name A: updating A to the value 2 produces the overwritten
pair. -/
theorem entries_unique_names_and_merge_order_w :
    ((⟨("A").data, ("2").data⟩ : Environment).name = ("A").data
      ∧ (⟨("A").data, ("2").data⟩ : Environment).value = ("2").data)
    ∨ ((⟨("A").data, ("2").data⟩ : Environment) ∈ [(⟨("A").data, ("1").data⟩ : Environment)]
      ∧ (⟨("A").data, ("2").data⟩ : Environment).name ≠ ("A").data) :=
  (entries_unique_names_and_merge_order ([]) ([]) none).2.2.2.2.2.1
    [⟨("A").data, ("1").data⟩] (("A").data) (("2").data) (by decide)
    ⟨("A").data, ("2").data⟩ (by decide)

/-- C3: the value of a matched line is post-processed by first un-escaping
literal backslash-n sequences when the value is wrapped in a matching pair
of double quotes, and then stripping one leading and one trailing quote
character; in particular a double-quoted value with a literal backslash-n
parses to a value with a real newline. -/
theorem value_postprocess_order :
    (∀ v : Chars, postprocessValue v
        = stripQuotes (if 2 ≤ v.length ∧ v.head? = some '"' ∧ v.getLast? = some '"'
            then unescapeNl v else v))
    ∧ (CreateFromContent (("KEY=\"line1\\nline2\"").data) ([]) none).Env
        = [⟨("KEY").data, ("line1\nline2").data⟩] := by
  constructor
  · intro v
    rcases v with _ | ⟨a, t⟩
    · simp [postprocessValue, isDqWrapped]
    · rcases t with _ | ⟨b, t2⟩
      · by_cases ha : a = '"'
        · subst ha
          decide
        · have h34 : (a.toNat == 34) = false := by
            rw [beq_eq_false_iff_ne]
            exact fun hh => ha (char_eq_of_toNat hh)
          simp [postprocessValue, isDqWrapped, h34]
      · obtain ⟨g, hgl⟩ : ∃ g, (a :: b :: t2).getLast? = some g :=
          ⟨(a :: b :: t2).getLast (by simp), List.getLast?_eq_getLast _ _⟩
        have hlen : 2 ≤ (a :: b :: t2).length := by
          simp [List.length_cons]
        have hiff : isDqWrapped (a :: b :: t2) = true ↔ (a = '"' ∧ g = '"') := by
          rw [show isDqWrapped (a :: b :: t2)
              = ((a.toNat == 34) && (g.toNat == 34)) by simp [isDqWrapped, hgl]]
          simp only [Bool.and_eq_true, beq_iff_eq]
          constructor
          · rintro ⟨h1, h2⟩
            exact ⟨char_eq_of_toNat h1, char_eq_of_toNat h2⟩
          · rintro ⟨rfl, rfl⟩
            exact ⟨rfl, rfl⟩
        by_cases hcond : a = '"' ∧ g = '"'
        · have h1 : isDqWrapped (a :: b :: t2) = true := hiff.mpr hcond
          have h2 : 2 ≤ (a :: b :: t2).length ∧ (a :: b :: t2).head? = some '"'
              ∧ (a :: b :: t2).getLast? = some '"' :=
            ⟨hlen, by rw [List.head?_cons, hcond.1], by rw [hgl, hcond.2]⟩
          unfold postprocessValue
          rw [h1, if_pos h2]
          simp
        · have h1 : isDqWrapped (a :: b :: t2) = false :=
            Bool.eq_false_iff.mpr fun hh => hcond (hiff.mp hh)
          have h2 : ¬(2 ≤ (a :: b :: t2).length ∧ (a :: b :: t2).head? = some '"'
              ∧ (a :: b :: t2).getLast? = some '"') := by
            rintro ⟨_, hh, hgl2⟩
            apply hcond
            refine ⟨by simpa using hh, ?_⟩
            rw [hgl] at hgl2
            simpa using hgl2
          unfold postprocessValue
          rw [h1, if_neg h2]
          simp
  · decide

/-- C3 witness: the general post-processing equation applied at the
concrete double-quoted value with an escaped newline. -/
theorem value_postprocess_order_w :
    postprocessValue (("\"a\\nb\"").data)
      = stripQuotes (if 2 ≤ (("\"a\\nb\"").data).length
          ∧ (("\"a\\nb\"").data).head? = some '"'
          ∧ (("\"a\\nb\"").data).getLast? = some '"'
          then unescapeNl (("\"a\\nb\"").data) else (("\"a\\nb\"").data)) :=
  value_postprocess_order.1 (("\"a\\nb\"").data)

/-- C9 counterexample: the line K=v with two trailing spaces parses to the
value with the trailing spaces kept, not to the bare value the claim
states: the greedy value group of the regex absorbs trailing whitespace. -/
theorem trailing_ws_cex :
    (CreateFromContent (("K=v  ").data) ([]) none).Env
        = [⟨("K").data, ("v  ").data⟩]
    ∧ (CreateFromContent (("K=v  ").data) ([]) none).Env
        ≠ [⟨("K").data, ("v").data⟩] := by
  decide

/-- C9 amended: whitespace around the key and after the '=' is not part of
the key or the value (the key contains no whitespace and the value never
starts with one), but trailing whitespace of a matching line is included
in the value because the greedy value pattern absorbs it before the final
whitespace star: "  K = v  " parses to key K with value "v  ". -/
theorem line_grammar_ws_amended :
    (∀ line k v : Chars, matchLine line = some (k, v) →
      (∀ c ∈ k, isWs c = false) ∧ (∀ c, v.head? = some c → isWs c = false))
    ∧ (CreateFromContent (("  K = v  ").data) ([]) none).Env
        = [⟨("K").data, ("v  ").data⟩] := by
  constructor
  · intro line k v h
    obtain ⟨_, hkc⟩ := matchLine_key_ok h
    exact ⟨fun c hc => keyChar_not_ws (hkc c hc), (matchLine_val_ok h).2⟩
  · decide

/-- C9 amended witness: the general whitespace exclusion applied at the
concrete matching line K=v. -/
theorem line_grammar_ws_amended_w : isWs 'K' = false :=
  (line_grammar_ws_amended.1 (("K=v").data) (("K").data) (("v").data) (by decide)).1
    'K' (by decide)

/-- C10: the quote-stripping step treats the leading and the trailing
quote independently and never requires them to match: a value framed by
two different quote characters loses both, and a value that is exactly
one double quote becomes empty. -/
theorem quote_strip_independent :
    (∀ (v : Chars) (q1 q2 : Char), isQuote q1 = true → isQuote q2 = true → q1 ≠ q2 →
      postprocessValue (q1 :: (v ++ [q2])) = v)
    ∧ (CreateFromContent (("K='v\"").data) ([]) none).Env
        = [⟨("K").data, ("v").data⟩]
    ∧ (CreateFromContent (("K=\"").data) ([]) none).Env = [⟨("K").data, ([])⟩] := by
  refine ⟨?_, by decide, by decide⟩
  intro v q1 q2 hq1 hq2 hne
  have hlast : (q1 :: (v ++ [q2])).getLast? = some q2 := by
    rw [show q1 :: (v ++ [q2]) = (q1 :: v) ++ [q2] from rfl]
    exact List.getLast?_concat _
  have hW : isDqWrapped (q1 :: (v ++ [q2])) = false := by
    by_cases h1 : q1.toNat = 34
    · have h2 : ¬(q2.toNat = 34) := fun h2 => hne (char_eq_of_toNat (h1.trans h2.symm))
      have h2b : (q2.toNat == 34) = false := by
        rw [beq_eq_false_iff_ne]
        exact h2
      simp [isDqWrapped, hlast, h2b]
    · have h1b : (q1.toNat == 34) = false := by
        rw [beq_eq_false_iff_ne]
        exact h1
      simp [isDqWrapped, hlast, h1b]
  unfold postprocessValue
  rw [hW]
  simp only [Bool.false_eq_true, if_false]
  simp [stripQuotes, hq1, hlast, hq2, List.dropLast_concat]

/-- C10 witness: the general statement applied at a single-quote opening
and double-quote closing frame around the value x. -/
theorem quote_strip_independent_w :
    postprocessValue ('\'' :: ((("x").data) ++ ['"'])) = ("x").data :=
  quote_strip_independent.1 (("x").data) '\'' '"' (by decide) (by decide) (by decide)

/-- C8 counterexample: formatting back and re-parsing changes the entry
list when a value contains a real newline that came from un-escaping a
backslash-n inside a double-quoted value. -/
theorem roundtrip_cex :
    (CreateFromContent
        (formatEntries ((CreateFromContent (("K=\"a\\nb\"").data) ([]) none).Env))
        ([]) none).Env
      ≠ (CreateFromContent (("K=\"a\\nb\"").data) ([]) none).Env := by
  decide

/-- C8 amended: for every input text whose parsed entries have values with
no line-terminator character, no leading whitespace or quote, and no
trailing quote, formatting the emitted entry list back into KEY=VALUE
lines and re-parsing yields exactly the same entry list. -/
theorem roundtrip_amended (content envFile : Chars)
    (h : ∀ e ∈ (CreateFromContent content envFile none).Env, goodVal e.value = true) :
    (CreateFromContent
        (formatEntries ((CreateFromContent content envFile none).Env))
        envFile none).Env
      = (CreateFromContent content envFile none).Env :=
  roundtrip_env content envFile h

/-- C8 amended witness: a concrete two-entry round trip. -/
theorem roundtrip_amended_w :
    (CreateFromContent
        (formatEntries ((CreateFromContent (("A=1\nB=2").data) ([]) none).Env))
        ([]) none).Env
      = (CreateFromContent (("A=1\nB=2").data) ([]) none).Env :=
  roundtrip_amended (("A=1\nB=2").data) ([]) (by decide)

/-- C4: a failed download in applyUpdate is retried exactly once and only
with the single fallback of setting http.proxySupport to off when it was
not already off; a cycle whose fallback was already in effect, or whose
retry fails again, rejects; on every outcome the configuration updates of
the trace replay to the original configuration and the settlement is the
final action, so any temporary change is reverted before the outcome is
reported; a failure-then-success run performs exactly one fallback change
which is reverted before the resolve. -/
theorem update_retry_fallback_policy (defVal : String) (dl : Nat → Bool)
    (installOk : Bool) (cfg0 : Cfg) :
    dlCount (applyUpdateActs defVal dl true installOk cfg0) ≤ 2
    ∧ (dl 0 = true → dlCount (applyUpdateActs defVal dl true installOk cfg0) = 1)
    ∧ (dl 0 = false → ¬(Cfg.get cfg0 defVal ≠ ("off") ∧ cfg0.globalVal ≠ some ("off")) →
        applyUpdateActs defVal dl true installOk cfg0
          = [Act.download 0 false, Act.rejectA dlFailMsg])
    ∧ (dl 0 = false → Cfg.get cfg0 defVal ≠ ("off") → cfg0.globalVal ≠ some ("off") →
        dl 1 = false →
        applyUpdateActs defVal dl true installOk cfg0
          = [Act.download 0 false, Act.updateCfg (some ("off")), Act.download 1 false,
             Act.updateCfg cfg0.globalVal, Act.rejectA dlOffFailMsg])
    ∧ (dl 0 = false → Cfg.get cfg0 defVal ≠ ("off") → cfg0.globalVal ≠ some ("off") →
        dl 1 = true → installOk = true →
        applyUpdateActs defVal dl true installOk cfg0
          = [Act.download 0 false, Act.updateCfg (some ("off")), Act.download 1 true,
             Act.updateCfg cfg0.globalVal, Act.telemetryA, Act.installA true,
             Act.clearTimerA, Act.resolveA])
    ∧ replayCfg cfg0 (applyUpdateActs defVal dl true installOk cfg0) = cfg0
    ∧ ∃ b, settledOf (applyUpdateActs defVal dl true installOk cfg0) = some b := by
  cases h0 : dl 0 with
  | true =>
    have hA := applyUpdateActs_succ0 defVal dl installOk cfg0 h0
    cases hio : installOk with
    | true =>
      rw [hio] at hA
      refine ⟨by simp [hA, dlCount], fun _ => by simp [hA, dlCount],
        ?_, ?_, ?_, by simp [hA, replayCfg], ⟨true, by simp [hA, settledOf]⟩⟩
      all_goals intro hh
      all_goals simp at hh
    | false =>
      rw [hio] at hA
      refine ⟨by simp [hA, dlCount], fun _ => by simp [hA, dlCount],
        ?_, ?_, ?_, by simp [hA, replayCfg], ⟨false, by simp [hA, settledOf]⟩⟩
      all_goals intro hh
      all_goals simp at hh
  | false =>
    by_cases hg : Cfg.get cfg0 defVal ≠ ("off") ∧ cfg0.globalVal ≠ some ("off")
    · cases h1 : dl 1 with
      | false =>
        have hA := applyUpdateActs_fail_fb_fail defVal dl installOk cfg0 h0 hg.1 hg.2 h1
        refine ⟨by simp [hA, dlCount], by simp [h0],
          fun _ hng => absurd hg hng,
          fun _ _ _ _ => hA,
          ?_,
          by simp [hA, replayCfg],
          ⟨false, by simp [hA, settledOf]⟩⟩
        intro _ _ _ hd1 _
        simp at hd1
      | true =>
        cases hio : installOk with
        | true =>
          have hA := applyUpdateActs_fail_fb_succ defVal dl true cfg0 h0 hg.1 hg.2 h1
          simp only [if_true] at hA
          refine ⟨by simp [hA, dlCount], by simp [h0],
            fun _ hng => absurd hg hng,
            ?_,
            fun _ _ _ _ _ => by simp [hA],
            by simp [hA, replayCfg],
            ⟨true, by simp [hA, settledOf]⟩⟩
          intro _ _ _ hd1
          simp at hd1
        | false =>
          have hA := applyUpdateActs_fail_fb_succ defVal dl false cfg0 h0 hg.1 hg.2 h1
          simp only [Bool.false_eq_true, if_false] at hA
          refine ⟨by simp [hA, dlCount], by simp [h0],
            fun _ hng => absurd hg hng,
            ?_,
            fun _ _ _ _ hio2 => absurd hio2 (by simp),
            by simp [hA, replayCfg],
            ⟨false, by simp [hA, settledOf]⟩⟩
          intro _ _ _ hd1
          simp at hd1
    · have hA := applyUpdateActs_fail_nofb defVal dl installOk cfg0 h0 hg
      refine ⟨by simp [hA, dlCount], by simp [h0],
        fun _ _ => hA,
        fun _ hga hgb _ => absurd ⟨hga, hgb⟩ hg,
        fun _ hga hgb _ _ => absurd ⟨hga, hgb⟩ hg,
        by simp [hA, replayCfg],
        ⟨false, by simp [hA, settledOf]⟩⟩

/-- C4 witness: the failure-then-success trace at a concrete oracle: one
download failure, one fallback change, a successful retry, the revert, and
the resolve, in that order. -/
theorem update_retry_fallback_policy_w :
    applyUpdateActs ("override") (fun n => n == 1) true true ⟨some ("on")⟩
      = [Act.download 0 false, Act.updateCfg (some ("off")), Act.download 1 true,
         Act.updateCfg (some ("on")), Act.telemetryA, Act.installA true,
         Act.clearTimerA, Act.resolveA] :=
  (update_retry_fallback_policy ("override") (fun n => n == 1) true
    ⟨some ("on")⟩).2.2.2.2.1 (by decide) (by decide) (by decide) (by decide) rfl

/-- C5: over the spawn-based install variants, every event trace that
contains the timeout or a decision event settles the promise; in both
variants a first timeout kills the process and rejects; in the exit-code
variant the first exit settles with success exactly on status zero; in
the stdin/stdout variant the first output byte writes the confirmation
token and resolves, and nothing later — in particular no exit event —
changes that settlement. -/
theorem install_timeout_and_decision :
    (∀ tr : List PEvent, (PEvent.timeoutE ∈ tr ∨ ∃ c, PEvent.exitE c ∈ tr) →
        (runNewCli tr).settled.isSome = true)
    ∧ (∀ tr : List PEvent, (PEvent.timeoutE ∈ tr ∨ PEvent.dataE ∈ tr) →
        (runOldCli tr).settled.isSome = true)
    ∧ (∀ rest : List PEvent, (runNewCli (PEvent.timeoutE :: rest)).killed = true
        ∧ (runNewCli (PEvent.timeoutE :: rest)).settled
            = some (Except.error timeoutRejMsg))
    ∧ (∀ rest : List PEvent, (runOldCli (PEvent.timeoutE :: rest)).killed = true
        ∧ (runOldCli (PEvent.timeoutE :: rest)).settled
            = some (Except.error timeoutRejMsg))
    ∧ (∀ (c : Int) (rest : List PEvent), (runNewCli (PEvent.exitE c :: rest)).settled
        = some (if c = 0 then Except.ok () else Except.error installFailMsg))
    ∧ (∀ rest : List PEvent,
        (runOldCli (PEvent.dataE :: rest)).settled = some (Except.ok ())
        ∧ overrideToken ∈ (runOldCli (PEvent.dataE :: rest)).stdinWrites) := by
  refine ⟨runNewCli_settles, runOldCli_settles, ?_, ?_, ?_, ?_⟩
  · intro rest
    constructor
    · show ((PEvent.timeoutE :: rest).foldl stepNewCli initPState).killed = true
      rw [List.foldl_cons]
      exact foldl_stepNewCli_killed rest _ rfl
    · show ((PEvent.timeoutE :: rest).foldl stepNewCli initPState).settled
        = some (Except.error timeoutRejMsg)
      rw [List.foldl_cons,
        foldl_stepNewCli_settled rest (stepNewCli initPState PEvent.timeoutE) rfl]
      rfl
  · intro rest
    constructor
    · show ((PEvent.timeoutE :: rest).foldl stepOldCli initPState).killed = true
      rw [List.foldl_cons]
      exact foldl_stepOldCli_killed rest _ rfl
    · show ((PEvent.timeoutE :: rest).foldl stepOldCli initPState).settled
        = some (Except.error timeoutRejMsg)
      rw [List.foldl_cons,
        foldl_stepOldCli_settled rest (stepOldCli initPState PEvent.timeoutE) rfl]
      rfl
  · intro c rest
    show ((PEvent.exitE c :: rest).foldl stepNewCli initPState).settled
      = some (if c = 0 then Except.ok () else Except.error installFailMsg)
    rw [List.foldl_cons]
    have hsome : (stepNewCli initPState (PEvent.exitE c)).settled.isSome = true := by
      by_cases hc : c ≠ 0 <;> simp [stepNewCli, settleWith, initPState, hc]
    rw [foldl_stepNewCli_settled rest _ hsome]
    by_cases hc : c = 0
    · simp [stepNewCli, settleWith, initPState, hc]
    · simp [stepNewCli, settleWith, initPState, hc]
  · intro rest
    constructor
    · show ((PEvent.dataE :: rest).foldl stepOldCli initPState).settled
        = some (Except.ok ())
      rw [List.foldl_cons,
        foldl_stepOldCli_settled rest (stepOldCli initPState PEvent.dataE) rfl]
      rfl
    · show overrideToken
        ∈ ((PEvent.dataE :: rest).foldl stepOldCli initPState).stdinWrites
      rw [List.foldl_cons]
      refine foldl_stepOldCli_stdin rest _ _ ?_
      show overrideToken ∈ (stepOldCli initPState PEvent.dataE).stdinWrites
      simp [stepOldCli, settleWith, initPState]

/-- C5 witness: a trace consisting of the timeout alone settles the
exit-code variant. -/
theorem install_timeout_and_decision_w :
    (runNewCli [PEvent.timeoutE]).settled.isSome = true :=
  install_timeout_and_decision.1 [PEvent.timeoutE] (Or.inl (by decide))

/-- C6: neither applyUpdate (inner promise plus its catch handler) nor
checkAndApplyUpdate ever rejects: every failure path of a cycle is caught
and logged, for every oracle outcome of the temp file, downloads, install
and feed query. -/
theorem update_cycle_never_rejects (cache : Option BuildInfo)
    (fetch : Except String (Option BuildInfo)) (defVal : String) (dl : Nat → Bool)
    (tmpOk installOk : Bool) (cfg0 : Cfg) :
    applyUpdateExc defVal dl tmpOk installOk cfg0 = Except.ok ()
    ∧ checkAndApplyUpdateExc cache fetch defVal dl tmpOk installOk cfg0
        = Except.ok () := by
  have h1 : applyUpdateExc defVal dl tmpOk installOk cfg0 = Except.ok () := by
    unfold applyUpdateExc
    cases h : applyUpdateInner defVal dl tmpOk installOk cfg0 with
    | ok a =>
      cases a
      rfl
    | error e => rfl
  refine ⟨h1, ?_⟩
  unfold checkAndApplyUpdateExc
  cases cache with
  | some b => exact h1
  | none =>
    cases fetch with
    | ok r =>
      cases r with
      | none => rfl
      | some b => exact h1
    | error e => rfl

/-- C7: the startup registration of the recurring Insiders update timer
passes the channel to checkAndApplyUpdate on every tick, but the
settings-change registration passes no argument at all, so the ticks of a
timer started by a settings change do not receive the active channel. -/
theorem polling_tick_argument :
    realActivationUpdateTimer ("Insiders")
        = some ⟨insiderUpdateTimerInterval, some ("Insiders")⟩
    ∧ settingsChangeUpdateTimer ("Insiders")
        = some ⟨insiderUpdateTimerInterval, none⟩
    ∧ (settingsChangeUpdateTimer ("Insiders")).map TimerRegistration.tickArg
        ≠ (realActivationUpdateTimer ("Insiders")).map TimerRegistration.tickArg :=
  ⟨by decide, by decide, by decide⟩
